import Mathlib

/-!
Shallow embedding of the moltbook-3d-map ingestion/clustering core
(`src/lib/clustering.ts`, `src/lib/openai.ts`, and the position-computation
fragment of the ingestion route), together with theorems settling the frozen
claims about it.

Modelling conventions:
* JavaScript numbers are modelled as real numbers extended with the special
  values `NaN` and signed `Infinity` (`JSNum`), which arise in this code only
  through division (`0/0` is `NaN`) and through the `Infinity` literal used as
  the initial minimum distance in the k-means assignment loop.
* `Math.random()` is modelled as an explicit stream `r : ℕ → ℝ` of draws
  together with a cursor position; each call consumes the next stream value.
  Real executions satisfy `0 ≤ r i < 1`.
* The `do … while` index-sampling loop of `kMeansClustering` is not guaranteed
  to terminate for adversarial random streams; it is modelled with explicit
  fuel, returning `none` when the fuel is exhausted (i.e. when the JS loop
  would still be running).
-/

/-- A JavaScript number as produced by the arithmetic in this code base:
either NaN, a signed infinity (`inf true` is `+Infinity`), or a finite real. -/
inductive JSNum where
  | nan : JSNum
  | inf : Bool → JSNum
  | fin : ℝ → JSNum

/-- JavaScript division `x / y` of two finite numbers: `0/0` is NaN,
`x/0` for `x ≠ 0` is a signed infinity, otherwise ordinary real division. -/
noncomputable def jsDiv (x y : ℝ) : JSNum :=
  if y = 0 then
    if x = 0 then JSNum.nan else JSNum.inf (decide (0 < x))
  else JSNum.fin (x / y)

/-- JavaScript subtraction `1 - s` for `s : JSNum` (used for the cosine
distance `1 - sim` in the k-means assignment loop): `1 - NaN = NaN`,
`1 - ±Infinity = ∓Infinity`. -/
noncomputable def jsOneSub : JSNum → JSNum
  | JSNum.nan => JSNum.nan
  | JSNum.inf b => JSNum.inf (!b)
  | JSNum.fin x => JSNum.fin (1 - x)

/-- The JavaScript `<` comparison on `JSNum`: any comparison involving NaN is
false; `-Infinity` is below all finite values, `+Infinity` above them. -/
def jsLt : JSNum → JSNum → Prop
  | JSNum.nan, _ => False
  | _, JSNum.nan => False
  | JSNum.inf a, JSNum.inf b => a = false ∧ b = true
  | JSNum.inf a, JSNum.fin _ => a = false
  | JSNum.fin _, JSNum.inf b => b = true
  | JSNum.fin x, JSNum.fin y => x < y

noncomputable instance jsLt.instDecidable : ∀ a b : JSNum, Decidable (jsLt a b) := by
  intro a b
  cases a <;> cases b <;> simp only [jsLt] <;> infer_instance

/-- The dot-product accumulator of `cosineSimilarity` (the loop
`dotProduct += a[i] * b[i]`), for equal-length vectors. -/
def dotList (a b : List ℝ) : ℝ :=
  (List.zipWith (fun x y => x * y) a b).sum

/-- The squared-norm accumulator of `cosineSimilarity`
(the loop `normA += a[i] * a[i]`). -/
def normSq (a : List ℝ) : ℝ :=
  (a.map (fun x => x * x)).sum

/-- `cosineSimilarity` from `src/lib/clustering.ts` (lines 80–94): returns the
JS number `0` when the lengths differ, otherwise
`dotProduct / (Math.sqrt(normA) * Math.sqrt(normB))` — which is NaN when
either vector is all zeros. -/
noncomputable def cosineSimilarity (a b : List ℝ) : JSNum :=
  if a.length ≠ b.length then JSNum.fin 0
  else jsDiv (dotList a b) (Real.sqrt (normSq a) * Real.sqrt (normSq b))

/-- One step of the `centroids.forEach` loop in the assignment pass of
`kMeansClustering` (lines 128–135): the state is `(minDist, nearest, index)`;
`dist = 1 - sim` wins only when strictly below the current minimum (so a NaN
distance never wins a comparison). -/
noncomputable def assignStep (emb : List ℝ) (st : JSNum × ℕ × ℕ)
    (cent : List ℝ) : JSNum × ℕ × ℕ :=
  let dist := jsOneSub (cosineSimilarity emb cent)
  if jsLt dist st.1 then (dist, st.2.2, st.2.2 + 1)
  else (st.1, st.2.1, st.2.2 + 1)

/-- One nearest-centroid search of `kMeansClustering` (lines 125–137),
starting from `minDist = Infinity`, `nearest = 0`. -/
noncomputable def assignPoint (emb : List ℝ) (cents : List (List ℝ)) : ℕ :=
  (cents.foldl (assignStep emb) (JSNum.inf true, 0, 0)).2.1

/-- The assignment pass `embeddings.map(...)` of `kMeansClustering`. -/
noncomputable def assignAll (embs : List (List ℝ)) (cents : List (List ℝ)) : List ℕ :=
  embs.map (fun emb => assignPoint emb cents)

/-- The accumulation loop `point.forEach((val, i) => newCentroid[i] += val)`:
adds the components of `pt` into the front of `acc`. -/
def addInto : List ℝ → List ℝ → List ℝ
  | acc, [] => acc
  | [], _ => []
  | a :: as, v :: vs => (a + v) :: addInto as vs

/-- The centroid-update pass of `kMeansClustering` (lines 146–157):
`centroids.map((_, ci) => ...)` — a centroid whose cluster is empty keeps its
previous value, otherwise the coordinate-wise mean of the assigned vectors. -/
noncomputable def updateCentroids (embs : List (List ℝ)) (clusters : List ℕ)
    (cents : List (List ℝ)) (dim : ℕ) : List (List ℝ) :=
  (List.range cents.length).map (fun ci =>
    let pts := ((embs.zip clusters).filter (fun pc => pc.2 = ci)).map Prod.fst
    if pts = [] then cents.getD ci []
    else
      (pts.foldl (fun acc pt => addInto acc pt) (List.replicate dim 0)).map
        (fun v => v / (pts.length : ℝ)))

/-- The main iteration of `kMeansClustering` (lines 123–158): assign all
points, stop if no assignment changed, otherwise update the centroids and
continue; the iteration count is bounded by `maxIterations`. -/
noncomputable def kmeansLoop (embs : List (List ℝ)) (dim : ℕ) :
    List (List ℝ) → List ℕ → ℕ → List ℕ × List (List ℝ)
  | cents, clusters, 0 => (clusters, cents)
  | cents, clusters, iters + 1 =>
    let newClusters := assignAll embs cents
    if newClusters = clusters then (newClusters, cents)
    else kmeansLoop embs dim (updateCentroids embs newClusters cents dim) newClusters iters

/-- One `do { idx = Math.floor(Math.random() * n) } while (usedIndices.has(idx))`
sampling step (lines 113–116), with explicit fuel: `none` models the loop
still running after `fuel` draws. -/
noncomputable def pickIdx (r : ℕ → ℝ) (n : ℕ) (used : List ℕ) :
    ℕ → ℕ → Option (ℕ × ℕ)
  | _, 0 => none
  | p, fuel + 1 =>
    let idx := (⌊r p * (n : ℝ)⌋).toNat
    if idx ∈ used then pickIdx r n used (p + 1) fuel
    else some (idx, p + 1)

/-- The centroid-initialization loop of `kMeansClustering` (lines 110–119):
samples `count = min k n` distinct indices (the seen-set is `used`) and pushes
a copy of each selected embedding; returns the centroids, the seen-set (most
recent first) and the new stream position. -/
noncomputable def initLoop (r : ℕ → ℝ) (embs : List (List ℝ)) :
    ℕ → List ℕ → List (List ℝ) → ℕ → ℕ →
      Option (List (List ℝ) × List ℕ × ℕ)
  | p, used, cents, 0, _ => some (cents, used, p)
  | p, used, cents, count + 1, fuel =>
    match pickIdx r embs.length used p fuel with
    | none => none
    | some (idx, p') =>
      initLoop r embs p' (idx :: used) (cents ++ [embs.getD idx []]) count fuel

/-- `kMeansClustering` from `src/lib/clustering.ts` (lines 97–161), with the
random stream, its cursor and the sampling fuel explicit. Returns `none` only
when the index-sampling `do … while` loop fails to terminate within `fuel`
draws; otherwise `some (clusters, centroids)`. -/
noncomputable def kMeansClustering (r : ℕ → ℝ) (p : ℕ) (embeddings : List (List ℝ))
    (k maxIterations fuel : ℕ) : Option (List ℕ × List (List ℝ)) :=
  let n := embeddings.length
  let dim := (embeddings.headD []).length
  if n = 0 ∨ dim = 0 then some ([], [])
  else
    match initLoop r embeddings p [] [] (min k n) fuel with
    | none => none
    | some (cents, _, _) =>
      some (kmeansLoop embeddings dim cents (List.replicate n 0) maxIterations)

/-- One random projection row of `embedTo3D`:
`Array.from({length: dim}, () => (Math.random() - 0.5) * 2)`, consuming the
stream values `r p, …, r (p + dim - 1)`. -/
noncomputable def randRow (r : ℕ → ℝ) (p dim : ℕ) : List ℝ :=
  (List.range dim).map (fun i => (r (p + i) - 1/2) * 2)

/-- The reduce `emb.reduce((sum, val, i) => sum + val * projection[j][i], 0)`
of `embedTo3D`, for an input no longer than the projection row. -/
def projDot (emb row : List ℝ) : ℝ :=
  (List.zipWith (fun v w => v * w) emb row).sum

/-- Application of a fixed three-row projection basis to a list of vectors,
with the `* 50` scaling of `embedTo3D`: the deterministic core shared by every
vector within one `embedTo3D` call. -/
def applyProj (basis : List ℝ × List ℝ × List ℝ) (embeddings : List (List ℝ)) :
    List (ℝ × ℝ × ℝ) :=
  embeddings.map (fun emb =>
    (projDot emb basis.1 * 50, projDot emb basis.2.1 * 50, projDot emb basis.2.2 * 50))

/-- `embedTo3D` from `src/lib/clustering.ts` (lines 164–188): returns `[]`
immediately on empty input (before drawing any randomness); otherwise draws a
fresh three-row random projection basis of the first vector's dimension and
maps every embedding through it. Returns the positions and the advanced
stream cursor. -/
noncomputable def embedTo3D (r : ℕ → ℝ) (p : ℕ) (embeddings : List (List ℝ)) :
    List (ℝ × ℝ × ℝ) × ℕ :=
  match embeddings with
  | [] => ([], p)
  | e0 :: _ =>
    let dim := e0.length
    (applyProj (randRow r p dim, randRow r (p + dim) dim, randRow r (p + 2 * dim) dim)
      embeddings, p + 3 * dim)

/-- The 3D-position computation of the ingestion pipeline
(`const positions = embedTo3D(allEmbeddings); const centroidPositions =
embedTo3D(centroids)`): two separate `embedTo3D` calls threaded through the
same random stream. -/
noncomputable def ingestComputePositions (r : ℕ → ℝ) (p : ℕ)
    (allEmbeddings centroids : List (List ℝ)) :
    List (ℝ × ℝ × ℝ) × List (ℝ × ℝ × ℝ) :=
  let itemRes := embedTo3D r p allEmbeddings
  let centRes := embedTo3D r itemRes.2 centroids
  (itemRes.1, centRes.1)

/-- A JavaScript value as produced by `JSON.parse`: null, a boolean, a
(finite) number, a string, an array, or an object. `JSON.parse` never yields
NaN, Infinity or undefined, so finite reals suffice for the number case. -/
inductive JsVal where
  | vNull : JsVal
  | vBool : Bool → JsVal
  | vNum : ℝ → JsVal
  | vStr : String → JsVal
  | vArr : List JsVal → JsVal
  | vObj : List (String × JsVal) → JsVal

/-- JavaScript truthiness of a parsed JSON value: `null`, `false`, `0` and
`""` are falsy; every other value, including any array or object, is truthy. -/
def jsTruthy : JsVal → Prop
  | JsVal.vNull => False
  | JsVal.vBool b => b = true
  | JsVal.vNum x => x ≠ 0
  | JsVal.vStr s => s ≠ ""
  | JsVal.vArr _ => True
  | JsVal.vObj _ => True

noncomputable instance jsTruthy.instDecidable : ∀ v : JsVal, Decidable (jsTruthy v) := by
  intro v
  cases v <;> simp only [jsTruthy] <;> infer_instance

/-- The `name`/`description` field accesses on the parsed object: each field
is either absent (`undefined`, also the case when the parsed value is not an
object at all) or holds an arbitrary JSON value — `JSON.parse` makes no
promise that the provider produced strings. -/
structure LabelJson where
  name : Option JsVal
  description : Option JsVal

/-- The outcome of `JSON.parse(response.choices[0].message.content || "{}")`
in `generateClusterLabel`: `fail` when `JSON.parse` throws on malformed
content, `ok` with the two field accesses otherwise. `JSON.parse` itself is a
JS builtin, modelled only through its outcome. -/
inductive ParseOutcome where
  | fail : ParseOutcome
  | ok : LabelJson → ParseOutcome

/-- The JavaScript `v || dflt` idiom on a field access: an absent field
(undefined) or any falsy value falls back to the default, while every truthy
value — whatever its type — is passed through raw. -/
noncomputable def jsOr (v : Option JsVal) (dflt : JsVal) : JsVal :=
  match v with
  | none => dflt
  | some w => if jsTruthy w then w else dflt

/-- The result handling of `generateClusterLabel` from `src/lib/openai.ts`
(lines 85–93): on a parse failure the catch branch returns
`{name: "Uncategorized", description: ""}`; otherwise
`result.name || "Uncategorized"` and `result.description || ""`. -/
noncomputable def generateClusterLabel (outcome : ParseOutcome) : JsVal × JsVal :=
  match outcome with
  | ParseOutcome.fail => (JsVal.vStr "Uncategorized", JsVal.vStr "")
  | ParseOutcome.ok j =>
    (jsOr j.name (JsVal.vStr "Uncategorized"), jsOr j.description (JsVal.vStr ""))

/-- A JavaScript heap of number arrays: cell `r` holds the array behind
reference `r`. Used to make the array mutations of `kMeansClustering`
observable. -/
abbrev Heap := List (List ℝ)

/-- Dereference an array reference. -/
def hread (h : Heap) (ref : ℕ) : List ℝ :=
  h.getD ref []

/-- Allocate a fresh array (e.g. `[...embeddings[idx]]`, `new Array(dim)`,
or the array produced by `.map`): appended at the end of the heap, its
reference is the previous heap size. -/
def halloc (h : Heap) (v : List ℝ) : Heap × ℕ :=
  (h ++ [v], h.length)

/-- The element write `arr[i] = x` on the array behind `ref`. -/
def hwrite (h : Heap) (ref i : ℕ) (x : ℝ) : Heap :=
  h.set ref ((h.getD ref []).set i x)

/-- The loop `point.forEach((val, i) => newCentroid[i] += val)` against the
heap: reads and writes the array behind `nc` element by element. -/
def addIntoRef (h : Heap) (nc : ℕ) (pt : List ℝ) : Heap :=
  pt.enum.foldl (fun hh iv => hwrite hh nc iv.1 ((hread hh nc).getD iv.1 0 + iv.2)) h

/-- The centroid-update pass of `kMeansClustering` against the heap: for each
centroid index, either keep the existing centroid reference (empty cluster) or
allocate `new Array(dim).fill(0)`, accumulate the assigned points into it, and
allocate the `.map((val) => val / clusterPoints.length)` result. -/
noncomputable def updateCentroidsRef (embRefs clusters : List ℕ) (dim : ℕ) :
    Heap → List ℕ → Heap × List ℕ :=
  fun h centRefs =>
    centRefs.enum.foldl
      (fun (st : Heap × List ℕ) cicr =>
        let pts := ((embRefs.zip clusters).filter (fun pc => pc.2 = cicr.1)).map Prod.fst
        if pts = [] then (st.1, st.2 ++ [cicr.2])
        else
          let alloc0 := halloc st.1 (List.replicate dim 0)
          let h2 := pts.foldl (fun hh pr => addIntoRef hh alloc0.2 (hread hh pr)) alloc0.1
          let allocm := halloc h2 ((hread h2 alloc0.2).map (fun v => v / (pts.length : ℝ)))
          (allocm.1, st.2 ++ [allocm.2]))
      (h, [])

/-- The main k-means iteration against the heap: assignments only read the
heap; centroid updates thread it. -/
noncomputable def kmeansLoopRef (embRefs : List ℕ) (dim : ℕ) :
    Heap → List ℕ → List ℕ → ℕ → Heap × List ℕ × List ℕ
  | h, centRefs, clusters, 0 => (h, clusters, centRefs)
  | h, centRefs, clusters, iters + 1 =>
    let newClusters := embRefs.map (fun er => assignPoint (hread h er) (centRefs.map (hread h)))
    if newClusters = clusters then (h, newClusters, centRefs)
    else
      let upd := updateCentroidsRef embRefs newClusters dim h centRefs
      kmeansLoopRef embRefs dim upd.1 upd.2 newClusters iters

/-- The centroid initialization against the heap: each selected embedding is
copied into a freshly allocated array (`[...embeddings[idx]]`). -/
noncomputable def initLoopRef (r : ℕ → ℝ) (embRefs : List ℕ) :
    Heap → ℕ → List ℕ → List ℕ → ℕ → ℕ → Option (Heap × List ℕ × ℕ)
  | h, p, _, centRefs, 0, _ => some (h, centRefs, p)
  | h, p, used, centRefs, count + 1, fuel =>
    match pickIdx r embRefs.length used p fuel with
    | none => none
    | some (idx, p') =>
      let alloc := halloc h (hread h (embRefs.getD idx 0))
      initLoopRef r embRefs alloc.1 p' (idx :: used) (centRefs ++ [alloc.2]) count fuel

/-- `kMeansClustering` against the heap: the embeddings are passed as array
references into `h`; the result is the final heap together with the cluster
assignment and the centroid references. -/
noncomputable def kMeansClusteringRef (r : ℕ → ℝ) (p : ℕ) (h : Heap)
    (embRefs : List ℕ) (k maxIterations fuel : ℕ) :
    Option (Heap × List ℕ × List ℕ) :=
  let n := embRefs.length
  let dim := match embRefs with
    | [] => 0
    | r0 :: _ => (hread h r0).length
  if n = 0 ∨ dim = 0 then some (h, [], [])
  else
    match initLoopRef r embRefs h p [] [] (min k n) fuel with
    | none => none
    | some (h1, centRefs, _) =>
      some (kmeansLoopRef embRefs dim h1 centRefs (List.replicate n 0) maxIterations)

lemma dotList_nil_left (b : List ℝ) : dotList [] b = 0 := rfl

lemma dotList_cons (x y : ℝ) (xs ys : List ℝ) :
    dotList (x :: xs) (y :: ys) = x * y + dotList xs ys := by
  simp [dotList]

lemma dotList_comm (a b : List ℝ) : dotList a b = dotList b a := by
  induction a generalizing b with
  | nil => cases b <;> simp [dotList]
  | cons x xs ih =>
    cases b with
    | nil => simp [dotList]
    | cons y ys => rw [dotList_cons, dotList_cons, ih, mul_comm]

lemma normSq_nonneg (a : List ℝ) : 0 ≤ normSq a := by
  induction a with
  | nil => simp [normSq]
  | cons x xs ih =>
    simp only [normSq, List.map_cons, List.sum_cons] at ih ⊢
    nlinarith [mul_self_nonneg x]

lemma normSq_pos : ∀ (a : List ℝ), (∃ x ∈ a, x ≠ 0) → 0 < normSq a := by
  intro a
  induction a with
  | nil => rintro ⟨y, hy, -⟩; simp at hy
  | cons x xs ih =>
    rintro ⟨y, hy, hy0⟩
    have hxs : 0 ≤ normSq xs := normSq_nonneg xs
    have hsum : (xs.map (fun z => z * z)).sum = normSq xs := rfl
    simp only [normSq, List.map_cons, List.sum_cons]
    rcases List.mem_cons.mp hy with rfl | hmem
    · have h1 : 0 < y * y := mul_self_pos.mpr hy0
      nlinarith
    · have h2 : 0 < normSq xs := ih ⟨y, hmem, hy0⟩
      have hx : 0 ≤ x * x := mul_self_nonneg x
      nlinarith

lemma dotList_self (a : List ℝ) : dotList a a = normSq a := by
  induction a with
  | nil => rfl
  | cons x xs ih =>
    rw [dotList_cons, ih]
    simp [normSq]

lemma dotList_eq_sum : ∀ (a b : List ℝ), a.length = b.length →
    dotList a b = ∑ i ∈ Finset.range a.length, a.getD i 0 * b.getD i 0 := by
  intro a
  induction a with
  | nil => intro b _; simp [dotList]
  | cons x xs ih =>
    intro b hlen
    cases b with
    | nil => simp at hlen
    | cons y ys =>
      simp only [List.length_cons] at hlen
      rw [dotList_cons, ih ys (Nat.succ_injective hlen), List.length_cons,
        Finset.sum_range_succ']
      simp [add_comm]

lemma normSq_eq_sum (a : List ℝ) :
    normSq a = ∑ i ∈ Finset.range a.length, a.getD i 0 ^ 2 := by
  induction a with
  | nil => simp [normSq]
  | cons x xs ih =>
    have : normSq (x :: xs) = x * x + normSq xs := by simp [normSq]
    rw [this, ih, List.length_cons, Finset.sum_range_succ']
    simp [add_comm, pow_two]

lemma abs_dotList_le (a b : List ℝ) (hlen : a.length = b.length) :
    |dotList a b| ≤ Real.sqrt (normSq a) * Real.sqrt (normSq b) := by
  have hupper := Real.sum_mul_le_sqrt_mul_sqrt (Finset.range a.length)
    (fun i => a.getD i 0) (fun i => b.getD i 0)
  have hlower := Real.sum_mul_le_sqrt_mul_sqrt (Finset.range a.length)
    (fun i => a.getD i 0) (fun i => -(b.getD i 0))
  have hnegsum : ∑ i ∈ Finset.range a.length, a.getD i 0 * -(b.getD i 0) =
      -∑ i ∈ Finset.range a.length, a.getD i 0 * b.getD i 0 := by
    rw [← Finset.sum_neg_distrib]
    exact Finset.sum_congr rfl (fun i _ => by ring)
  have hnegsq : ∑ i ∈ Finset.range a.length, (-(b.getD i 0)) ^ 2 =
      ∑ i ∈ Finset.range a.length, b.getD i 0 ^ 2 := by
    exact Finset.sum_congr rfl (fun i _ => by ring)
  rw [hnegsum, hnegsq] at hlower
  rw [dotList_eq_sum a b hlen, normSq_eq_sum a, normSq_eq_sum b, ← hlen]
  rw [abs_le]
  constructor
  · linarith
  · exact hupper

/-- C7: `cosineSimilarity` is symmetric in its two arguments, and equals the
JS number `1` on any pair `(a, a)` where `a` has a non-zero component. -/
theorem cosineSimilarity_symm_self (a b : List ℝ) :
    cosineSimilarity a b = cosineSimilarity b a ∧
    ((∃ x ∈ a, x ≠ 0) → cosineSimilarity a a = JSNum.fin 1) := by
  constructor
  · unfold cosineSimilarity
    by_cases h : a.length = b.length
    · rw [if_neg (by simp [h]), if_neg (by simp [h]), dotList_comm, mul_comm]
    · rw [if_pos h, if_pos (fun hc => h hc.symm)]
  · intro ha
    have hA : 0 < normSq a := normSq_pos a ha
    unfold cosineSimilarity
    rw [if_neg (by simp), dotList_self,
      Real.mul_self_sqrt (normSq_nonneg a)]
    unfold jsDiv
    rw [if_neg hA.ne', div_self hA.ne']

/-- Witness for C7: `cosineSimilarity([1], [1]) = 1` for the non-zero vector
`[1]`. -/
theorem cosineSimilarity_symm_self_witness :
    cosineSimilarity [(1 : ℝ)] [(1 : ℝ)] = JSNum.fin 1 :=
  (cosineSimilarity_symm_self [(1 : ℝ)] [(1 : ℝ)]).2 ⟨1, by simp, one_ne_zero⟩

/-- C2 counterexample: on the equal-length pair `([0], [0])` the code computes
`0 / (Math.sqrt(0) * Math.sqrt(0)) = NaN`, which is not a value in `[-1, 1]`
(it is not a finite value at all), refuting the claim that equal-length inputs
always produce a value in `[-1, 1]`. -/
theorem cosineSimilarity_zero_vector_nan :
    cosineSimilarity [(0 : ℝ)] [(0 : ℝ)] = JSNum.nan ∧
    ∀ v : ℝ, cosineSimilarity [(0 : ℝ)] [(0 : ℝ)] ≠ JSNum.fin v := by
  have h : cosineSimilarity [(0 : ℝ)] [(0 : ℝ)] = JSNum.nan := by
    unfold cosineSimilarity jsDiv
    norm_num [dotList, normSq]
  exact ⟨h, fun v hc => by rw [h] at hc; cases hc⟩

/-- C2 (amended): `cosineSimilarity` returns the JS number `0` when the
lengths differ, and returns a finite value in `[-1, 1]` when the lengths agree
and both vectors have a non-zero component (for a pair of equal-length vectors
one of which is all-zero the result is NaN, see the counterexample). -/
theorem cosineSimilarity_range (a b : List ℝ) :
    (a.length ≠ b.length → cosineSimilarity a b = JSNum.fin 0) ∧
    (a.length = b.length → (∃ x ∈ a, x ≠ 0) → (∃ x ∈ b, x ≠ 0) →
      ∃ v : ℝ, cosineSimilarity a b = JSNum.fin v ∧ -1 ≤ v ∧ v ≤ 1) := by
  constructor
  · intro h
    unfold cosineSimilarity
    rw [if_pos h]
  · intro hlen ha hb
    have hA : 0 < normSq a := normSq_pos a ha
    have hB : 0 < normSq b := normSq_pos b hb
    have hden : 0 < Real.sqrt (normSq a) * Real.sqrt (normSq b) :=
      mul_pos (Real.sqrt_pos.mpr hA) (Real.sqrt_pos.mpr hB)
    have habs := abs_dotList_le a b hlen
    have hpair := abs_le.mp habs
    refine ⟨dotList a b / (Real.sqrt (normSq a) * Real.sqrt (normSq b)), ?_, ?_, ?_⟩
    · unfold cosineSimilarity jsDiv
      rw [if_neg (by simp [hlen]), if_neg hden.ne']
    · rw [le_div_iff₀ hden]
      linarith [hpair.1]
    · rw [div_le_one hden]
      exact hpair.2

/-- Witness for C2: a length mismatch yields the JS number `0`, and an
equal-length pair of non-zero vectors yields a finite value in `[-1, 1]`. -/
theorem cosineSimilarity_range_witness :
    cosineSimilarity [(1 : ℝ)] [] = JSNum.fin 0 ∧
    ∃ v : ℝ, cosineSimilarity [(1 : ℝ), 0] [(0 : ℝ), 1] = JSNum.fin v ∧
      -1 ≤ v ∧ v ≤ 1 := by
  constructor
  · exact (cosineSimilarity_range [(1 : ℝ)] []).1 (by simp)
  · exact (cosineSimilarity_range [(1 : ℝ), 0] [(0 : ℝ), 1]).2 (by simp)
      ⟨1, by simp, one_ne_zero⟩ ⟨1, by simp, one_ne_zero⟩

/-- C6: `kMeansClustering` on an empty vector list, or on a list whose vectors
have dimension zero, returns empty clusters and empty centroids (the early
return at lines 105–107, before any randomness is consumed, so no error can be
raised), and `embedTo3D` on an empty list returns an empty list with the
stream untouched. -/
theorem kMeans_embedTo3D_empty_input_safe :
    (∀ (r : ℕ → ℝ) (p k mi fuel : ℕ),
      kMeansClustering r p [] k mi fuel = some ([], [])) ∧
    (∀ (r : ℕ → ℝ) (p k mi fuel : ℕ) (rest : List (List ℝ)),
      kMeansClustering r p ([] :: rest) k mi fuel = some ([], [])) ∧
    (∀ (r : ℕ → ℝ) (p : ℕ), embedTo3D r p [] = ([], p)) := by
  refine ⟨?_, ?_, ?_⟩
  · intro r p k mi fuel; simp [kMeansClustering]
  · intro r p k mi fuel rest; simp [kMeansClustering]
  · intro r p; rfl

/-- C8 counterexample: a parseable but malformed response whose `name` field
is the number `42` is NOT replaced by the sentinel — `result.name ||
"Uncategorized"` passes any truthy value through raw, so `generateClusterLabel`
returns the number `42` as the name, refuting the claim that every malformed
provider output yields the sentinel name `"Uncategorized"`. -/
theorem generateClusterLabel_nonstring_passthrough :
    generateClusterLabel (ParseOutcome.ok ⟨some (JsVal.vNum 42), none⟩) =
      (JsVal.vNum 42, JsVal.vStr "") ∧
    ∀ s : String,
      (generateClusterLabel (ParseOutcome.ok ⟨some (JsVal.vNum 42), none⟩)).1 ≠
        JsVal.vStr s := by
  have hev : generateClusterLabel (ParseOutcome.ok ⟨some (JsVal.vNum 42), none⟩) =
      (JsVal.vNum 42, JsVal.vStr "") := by
    simp only [generateClusterLabel, jsOr]
    rw [if_pos (by norm_num [jsTruthy])]
  exact ⟨hev, fun s hc => by rw [hev] at hc; cases hc⟩

/-- C8 (amended): on an unparseable provider response (`JSON.parse` throws),
`generateClusterLabel` falls back to the sentinel `("Uncategorized", "")`, and
likewise whenever the parsed `name`/`description` fields are absent or falsy
(e.g. missing, null, or the empty string); the function is total, so no
provider outcome ever surfaces as an error. However — as the counterexample
shows — a parseable response whose `name` field is a truthy non-string value
is passed through raw instead of being replaced by the sentinel. -/
theorem generateClusterLabel_fallback :
    generateClusterLabel ParseOutcome.fail =
      (JsVal.vStr "Uncategorized", JsVal.vStr "") ∧
    generateClusterLabel (ParseOutcome.ok ⟨none, none⟩) =
      (JsVal.vStr "Uncategorized", JsVal.vStr "") ∧
    generateClusterLabel (ParseOutcome.ok ⟨some (JsVal.vStr ""), some (JsVal.vStr "")⟩) =
      (JsVal.vStr "Uncategorized", JsVal.vStr "") ∧
    (∀ j : LabelJson, (j.name = none ∨ ∃ w, j.name = some w ∧ ¬jsTruthy w) →
      (generateClusterLabel (ParseOutcome.ok j)).1 = JsVal.vStr "Uncategorized") ∧
    (∀ o : ParseOutcome, ∃ nm ds : JsVal, generateClusterLabel o = (nm, ds)) := by
  refine ⟨rfl, rfl, ?_, ?_, fun o => ⟨_, _, rfl⟩⟩
  · simp only [generateClusterLabel, jsOr]
    rw [if_neg (by simp [jsTruthy]), if_neg (by simp [jsTruthy])]
  · intro j hj
    rcases hj with hn | ⟨w, hw, hwf⟩
    · simp only [generateClusterLabel, hn, jsOr]
    · simp only [generateClusterLabel, hw, jsOr]
      rw [if_neg hwf]

/-- Witness for C8: the falsy-field conjunct applied at the concrete parsed
object whose `name` is `null` — the returned name is the sentinel. -/
theorem generateClusterLabel_fallback_witness :
    (generateClusterLabel (ParseOutcome.ok ⟨some JsVal.vNull, some (JsVal.vStr "d")⟩)).1 =
      JsVal.vStr "Uncategorized" :=
  generateClusterLabel_fallback.2.2.2.1 ⟨some JsVal.vNull, some (JsVal.vStr "d")⟩
    (Or.inr ⟨JsVal.vNull, rfl, by simp [jsTruthy]⟩)

lemma projDot_zero (u : List ℝ) (row : List ℝ) (hu : ∀ x ∈ u, x = 0) :
    projDot u row = 0 := by
  induction u generalizing row with
  | nil => cases row <;> rfl
  | cons x xs ih =>
    cases row with
    | nil => rfl
    | cons w ws =>
      have hx : x = 0 := hu x (List.mem_cons_self x xs)
      have : projDot (x :: xs) (w :: ws) = x * w + projDot xs ws := by
        simp [projDot]
      rw [this, hx, ih ws (fun y hy => hu y (List.mem_cons_of_mem x hy)), zero_mul,
        zero_add]

lemma projDot_add (row u v : List ℝ) (hlen : u.length = v.length) :
    projDot (List.zipWith (fun x y => x + y) u v) row =
      projDot u row + projDot v row := by
  induction u generalizing v row with
  | nil =>
    cases v with
    | nil => cases row <;> simp [projDot]
    | cons y ys => simp at hlen
  | cons x xs ih =>
    cases v with
    | nil => simp at hlen
    | cons y ys =>
      cases row with
      | nil => simp [projDot]
      | cons w ws =>
        simp only [List.length_cons] at hlen
        have hxs := ih ws ys (Nat.succ_injective hlen)
        simp only [List.zipWith_cons_cons, projDot, List.sum_cons] at hxs ⊢
        rw [hxs]
        ring

lemma projDot_smul (row u : List ℝ) (c : ℝ) :
    projDot (u.map (fun x => c * x)) row = c * projDot u row := by
  induction u generalizing row with
  | nil => cases row <;> simp [projDot]
  | cons x xs ih =>
    cases row with
    | nil => simp [projDot]
    | cons w ws =>
      simp only [List.map_cons, List.zipWith_cons_cons, projDot, List.sum_cons] at ih ⊢
      rw [ih ws]
      ring

/-- C10: within a single `embedTo3D` call the output has the length of the
input, every vector is projected through the same three projection rows (one
shared basis for the whole call), the projection is linear (additive and
homogeneous in the input vector), and an all-zero input vector maps to exactly
`(0, 0, 0)` whatever the random draw was. -/
theorem embedTo3D_shared_basis_linear (r : ℕ → ℝ) (p : ℕ) (embs : List (List ℝ))
    (huni : ∀ e ∈ embs, e.length = (embs.headD []).length) :
    (embedTo3D r p embs).1.length = embs.length ∧
    (∃ basis : List ℝ × List ℝ × List ℝ,
      (embedTo3D r p embs).1 = applyProj basis embs) ∧
    (∀ (row u v : List ℝ), u.length = v.length →
      projDot (List.zipWith (fun x y => x + y) u v) row =
        projDot u row + projDot v row) ∧
    (∀ (row u : List ℝ) (c : ℝ),
      projDot (u.map (fun x => c * x)) row = c * projDot u row) ∧
    (∀ j : ℕ, j < embs.length → (∀ x ∈ embs.getD j [], x = 0) →
      (embedTo3D r p embs).1.getD j (0, 0, 0) = (0, 0, 0)) := by
  refine ⟨?_, ?_, projDot_add, projDot_smul, ?_⟩
  · cases embs with
    | nil => rfl
    | cons e0 rest => simp [embedTo3D, applyProj]
  · cases embs with
    | nil => exact ⟨([], [], []), rfl⟩
    | cons e0 rest =>
      exact ⟨(randRow r p e0.length, randRow r (p + e0.length) e0.length,
        randRow r (p + 2 * e0.length) e0.length), rfl⟩
  · intro j hj hz
    cases embs with
    | nil => simp at hj
    | cons e0 rest =>
      have hget : (embedTo3D r p (e0 :: rest)).1.getD j (0, 0, 0) =
          (projDot ((e0 :: rest).getD j []) (randRow r p e0.length) * 50,
           projDot ((e0 :: rest).getD j []) (randRow r (p + e0.length) e0.length) * 50,
           projDot ((e0 :: rest).getD j []) (randRow r (p + 2 * e0.length) e0.length) * 50) := by
        simp only [embedTo3D, applyProj]
        rw [List.getD_eq_getElem _ _ (by simpa using hj), List.getElem_map,
          List.getD_eq_getElem _ _ hj]
      rw [hget, projDot_zero _ _ hz, projDot_zero _ _ hz, projDot_zero _ _ hz]
      norm_num

/-- Witness for C10: the linearity conjunct at concrete lists, and a concrete
one-element list holding the zero vector mapping to the origin. -/
theorem embedTo3D_shared_basis_linear_witness :
    projDot (List.zipWith (fun x y => x + y) [(1 : ℝ)] [(2 : ℝ)]) [(3 : ℝ)] =
      projDot [(1 : ℝ)] [(3 : ℝ)] + projDot [(2 : ℝ)] [(3 : ℝ)] ∧
    (embedTo3D (fun _ => 1/2) 0 [[(0 : ℝ)]]).1.getD 0 (0, 0, 0) = (0, 0, 0) := by
  constructor
  · exact (embedTo3D_shared_basis_linear (fun _ => 1/2) 0 [[(0 : ℝ)]]
      (by intro e he; simp at he; simp [he])).2.2.1 [(3 : ℝ)] [(1 : ℝ)] [(2 : ℝ)] rfl
  · exact (embedTo3D_shared_basis_linear (fun _ => 1/2) 0 [[(0 : ℝ)]]
      (by intro e he; simp at he; simp [he])).2.2.2.2 0 (by simp) (by simp)

/-- C1 (code bug): the ingestion pipeline computes item positions and centroid
positions by two separate `embedTo3D` calls, and `embedTo3D` draws a fresh
random basis inside every call, so the two position sets are NOT generated
from one shared projection basis. Concretely, for the random stream whose
first draw is `0` and whose later draws are `1/2`, the single item embedding
`[1]` is placed at `(-50, 0, 0)` while the identical centroid embedding `[1]`
is placed at `(0, 0, 0)` — no single basis can produce both, since one basis
maps equal inputs to equal outputs. -/
theorem ingest_positions_not_shared_basis :
    ingestComputePositions (fun i => if i = 0 then 0 else 1/2) 0
      [[(1 : ℝ)]] [[(1 : ℝ)]] =
      ([((-50 : ℝ), (0 : ℝ), (0 : ℝ))], [((0 : ℝ), (0 : ℝ), (0 : ℝ))]) ∧
    ∀ basis : List ℝ × List ℝ × List ℝ,
      ¬(applyProj basis [[(1 : ℝ)]] =
          (ingestComputePositions (fun i => if i = 0 then 0 else 1/2) 0
            [[(1 : ℝ)]] [[(1 : ℝ)]]).1 ∧
        applyProj basis [[(1 : ℝ)]] =
          (ingestComputePositions (fun i => if i = 0 then 0 else 1/2) 0
            [[(1 : ℝ)]] [[(1 : ℝ)]]).2) := by
  have heval : ingestComputePositions (fun i => if i = 0 then 0 else 1/2) 0
      [[(1 : ℝ)]] [[(1 : ℝ)]] =
      ([((-50 : ℝ), (0 : ℝ), (0 : ℝ))], [((0 : ℝ), (0 : ℝ), (0 : ℝ))]) := by
    simp only [ingestComputePositions, embedTo3D, applyProj, randRow, projDot]
    norm_num [List.range_succ]
  refine ⟨heval, ?_⟩
  intro basis hc
  rw [heval] at hc
  have h1 := hc.1
  have h2 := hc.2
  rw [h1] at h2
  simp only [Prod.mk.injEq, List.cons.injEq] at h2
  have : (-50 : ℝ) = 0 := h2.1.1
  norm_num at this

lemma assignFold_bound (emb : List ℝ) :
    ∀ (l : List (List ℝ)) (st : JSNum × ℕ × ℕ),
      (l.foldl (assignStep emb) st).2.1 = st.2.1 ∨
      (st.2.2 ≤ (l.foldl (assignStep emb) st).2.1 ∧
        (l.foldl (assignStep emb) st).2.1 < st.2.2 + l.length) := by
  intro l
  induction l with
  | nil => intro st; left; rfl
  | cons c cs ih =>
    intro st
    rw [List.foldl_cons]
    rcases ih (assignStep emb st c) with h | h
    · rw [h]
      unfold assignStep
      by_cases hlt : jsLt (jsOneSub (cosineSimilarity emb c)) st.1
      · rw [if_pos hlt]
        right
        simp only [List.length_cons]
        omega
      · rw [if_neg hlt]
        left
        rfl
    · right
      have hsnd : (assignStep emb st c).2.2 = st.2.2 + 1 := by
        unfold assignStep
        by_cases hlt : jsLt (jsOneSub (cosineSimilarity emb c)) st.1
        · rw [if_pos hlt]
        · rw [if_neg hlt]
      rw [hsnd] at h
      simp only [List.length_cons]
      omega

lemma assignPoint_lt (emb : List ℝ) (cents : List (List ℝ)) (hc : cents ≠ []) :
    assignPoint emb cents < cents.length := by
  have hlen : 0 < cents.length := List.length_pos.mpr hc
  unfold assignPoint
  rcases assignFold_bound emb cents (JSNum.inf true, 0, 0) with h | h
  · rw [h]; exact hlen
  · simpa using h.2

lemma assignAll_length (embs cents : List (List ℝ)) :
    (assignAll embs cents).length = embs.length := by
  simp [assignAll]

lemma assignAll_mem_lt (embs cents : List (List ℝ)) (hc : cents ≠ [])
    (c : ℕ) (hmem : c ∈ assignAll embs cents) : c < cents.length := by
  rcases List.mem_map.mp hmem with ⟨emb, -, rfl⟩
  exact assignPoint_lt emb cents hc

lemma updateCentroids_length (embs : List (List ℝ)) (clusters : List ℕ)
    (cents : List (List ℝ)) (dim : ℕ) :
    (updateCentroids embs clusters cents dim).length = cents.length := by
  simp [updateCentroids]

lemma kmeansLoop_zero (embs : List (List ℝ)) (dim : ℕ) (cents : List (List ℝ))
    (clusters : List ℕ) :
    kmeansLoop embs dim cents clusters 0 = (clusters, cents) := by
  rw [kmeansLoop]

lemma kmeansLoop_succ (embs : List (List ℝ)) (dim : ℕ) (cents : List (List ℝ))
    (clusters : List ℕ) (iters : ℕ) :
    kmeansLoop embs dim cents clusters (iters + 1) =
      if assignAll embs cents = clusters then (assignAll embs cents, cents)
      else kmeansLoop embs dim (updateCentroids embs (assignAll embs cents) cents dim)
        (assignAll embs cents) iters := by
  rw [kmeansLoop]

lemma kmeansLoop_inv (embs : List (List ℝ)) (dim m : ℕ) (hm : 0 < m) :
    ∀ (iters : ℕ) (cents : List (List ℝ)) (clusters : List ℕ),
      cents.length = m → clusters.length = embs.length →
      (∀ c ∈ clusters, c < m) →
      (kmeansLoop embs dim cents clusters iters).1.length = embs.length ∧
      (∀ c ∈ (kmeansLoop embs dim cents clusters iters).1, c < m) ∧
      (kmeansLoop embs dim cents clusters iters).2.length = m := by
  intro iters
  induction iters with
  | zero => intro cents clusters hcm hcl hlt; exact ⟨hcl, hlt, hcm⟩
  | succ it ih =>
    intro cents clusters hcm hcl hlt
    have hcne : cents ≠ [] := by
      intro h
      rw [h] at hcm
      simp at hcm
      omega
    have hnew_len : (assignAll embs cents).length = embs.length :=
      assignAll_length embs cents
    have hnew_lt : ∀ c ∈ assignAll embs cents, c < m := by
      intro c hcmem
      have := assignAll_mem_lt embs cents hcne c hcmem
      omega
    rw [kmeansLoop]
    by_cases heq : assignAll embs cents = clusters
    · rw [if_pos heq]
      exact ⟨hnew_len, hnew_lt, hcm⟩
    · rw [if_neg heq]
      exact ih (updateCentroids embs (assignAll embs cents) cents dim)
        (assignAll embs cents)
        (by rw [updateCentroids_length]; exact hcm) hnew_len hnew_lt

lemma initLoop_some_length (r : ℕ → ℝ) (embs : List (List ℝ)) :
    ∀ (count fuel p : ℕ) (used : List ℕ) (cents0 : List (List ℝ))
      (res : List (List ℝ) × List ℕ × ℕ),
      initLoop r embs p used cents0 count fuel = some res →
      res.1.length = cents0.length + count := by
  intro count
  induction count with
  | zero =>
    intro fuel p used cents0 res h
    rw [initLoop] at h
    cases h
    simp
  | succ c ih =>
    intro fuel p used cents0 res h
    rw [initLoop] at h
    rcases hp : pickIdx r embs.length used p fuel with _ | ⟨idx, p'⟩
    · rw [hp] at h; cases h
    · rw [hp] at h
      have := ih fuel p' (idx :: used) (cents0 ++ [embs.getD idx []]) res h
      simp at this
      omega

lemma kMeansClustering_eq_of_nonempty (r : ℕ → ℝ) (p : ℕ) (embs : List (List ℝ))
    (k maxIter fuel : ℕ) (hn : embs ≠ []) (hd : (embs.headD []).length ≠ 0) :
    kMeansClustering r p embs k maxIter fuel =
      match initLoop r embs p [] [] (min k embs.length) fuel with
      | none => none
      | some (cents, _, _) =>
        some (kmeansLoop embs (embs.headD []).length cents
          (List.replicate embs.length 0) maxIter) := by
  unfold kMeansClustering
  rw [if_neg]
  push_neg
  exact ⟨fun h => hn (List.length_eq_zero.mp h), hd⟩

lemma cosine_one_one_eval : cosineSimilarity [(1 : ℝ)] [(1 : ℝ)] = JSNum.fin 1 := by
  unfold cosineSimilarity jsDiv dotList normSq
  norm_num [Real.sqrt_one]

lemma assignPoint_one_eval : assignPoint [(1 : ℝ)] [[(1 : ℝ)]] = 0 := by
  unfold assignPoint
  rw [List.foldl_cons, List.foldl_nil]
  unfold assignStep
  rw [cosine_one_one_eval]
  norm_num [jsOneSub, jsLt]

lemma kMeans_concrete_run :
    kMeansClustering (fun _ => 0) 0 [[(1 : ℝ)]] 1 100 1 = some ([0], [[(1 : ℝ)]]) := by
  rw [kMeansClustering_eq_of_nonempty _ _ _ _ _ _ (by simp) (by simp)]
  have hpick : pickIdx (fun _ => (0 : ℝ)) 1 [] 0 1 = some (0, 1) := by
    norm_num [pickIdx]
  have hinit : initLoop (fun _ => (0 : ℝ)) [[(1 : ℝ)]] 0 [] [] (0 + 1) 1 =
      some ([[(1 : ℝ)]], [0], 1) := by
    rw [initLoop.eq_def]
    simp only [List.length_cons, List.length_nil, Nat.zero_add]
    rw [hpick]
    simp only [initLoop]
    rfl
  have hmin : min 1 [[(1 : ℝ)]].length = 0 + 1 := by simp
  rw [hmin, hinit]
  have hloop : kmeansLoop [[(1 : ℝ)]] [(1 : ℝ)].length [[(1 : ℝ)]]
      (List.replicate [[(1 : ℝ)]].length 0) 100 = ([0], [[(1 : ℝ)]]) := by
    have hnew : assignAll [[(1 : ℝ)]] [[(1 : ℝ)]] =
        List.replicate [[(1 : ℝ)]].length 0 := by
      simp [assignAll, assignPoint_one_eval]
    rw [show (100 : ℕ) = 99 + 1 from rfl, kmeansLoop_succ]
    rw [if_pos hnew, hnew]
    simp
  simp only [List.headD_cons] at hloop ⊢
  rw [hloop]

/-- C3 counterexample: the claim quantifies over every `k` at most the number
of distinct input vectors, which admits `k = 0`; on the non-empty input
`[[1]]` with `k = 0` the code returns the assignment `[0]` (length 1, correct)
whose value `0` is not in the empty interval `[0, 0)`, refuting the claim as
stated. -/
theorem kMeans_k_zero_counterexample :
    kMeansClustering (fun _ => 0) 0 [[(1 : ℝ)]] 0 100 1 = some ([0], []) ∧
    ¬(∀ c ∈ [(0 : ℕ)], c < 0) := by
  constructor
  · rw [kMeansClustering_eq_of_nonempty _ _ _ _ _ _ (by simp) (by simp)]
    have h1 : initLoop (fun _ => (0 : ℝ)) [[(1 : ℝ)]] 0 [] []
        (min 0 [[(1 : ℝ)]].length) 1 = some ([], [], 0) := by
      have hmin : min 0 [[(1 : ℝ)]].length = 0 := by simp
      rw [hmin]
      simp only [initLoop]
    rw [h1]
    have h2 : assignAll [[(1 : ℝ)]] [] = List.replicate 1 0 := by
      simp only [assignAll, assignPoint, List.map_cons, List.map_nil, List.foldl_nil]
      rfl
    have h3 : kmeansLoop [[(1 : ℝ)]] [(1 : ℝ)].length []
        (List.replicate [[(1 : ℝ)]].length 0) 100 = ([0], []) := by
      rw [show (100 : ℕ) = 99 + 1 from rfl, kmeansLoop_succ]
      simp only [List.length_cons, List.length_nil, Nat.zero_add] at h2 ⊢
      rw [if_pos h2, h2]
      rfl
    simp only [List.headD_cons] at h3 ⊢
    rw [h3]
  · intro h
    exact absurd (h 0 (by simp)) (by omega)

/-- C3 (amended): for a non-empty list of vectors of equal positive dimension
and `1 ≤ k ≤` the number of distinct input vectors, whenever the random index
sampling terminates (the run returns a result), `kMeansClustering` terminates
within the iteration bound and produces an assignment whose length equals the
input size with all values in `[0, min k n) ⊆ [0, k)`; moreover the loop stops
at the first fixed point: if an assignment pass reproduces the current
clusters, the loop returns immediately with the centroids unchanged. The
amendment excludes `k = 0` and zero-dimension vectors, which the
counterexample shows violate the claim as stated. -/
theorem kMeans_convergence (r : ℕ → ℝ) (p : ℕ) (embs : List (List ℝ))
    (k maxIter fuel : ℕ) (cl : List ℕ) (cs : List (List ℝ))
    (hne : embs ≠ [])
    (hdim : 0 < (embs.headD []).length)
    (hk : 1 ≤ k)
    (_hkd : k ≤ embs.dedup.length)
    (hrun : kMeansClustering r p embs k maxIter fuel = some (cl, cs)) :
    cl.length = embs.length ∧ (∀ c ∈ cl, c < k) ∧
    (∀ (dim iters : ℕ) (cents : List (List ℝ)) (clusters : List ℕ),
      assignAll embs cents = clusters →
      kmeansLoop embs dim cents clusters (iters + 1) = (clusters, cents)) := by
  have hnlen : 0 < embs.length := List.length_pos.mpr hne
  have hm : 0 < min k embs.length := lt_min hk hnlen
  rw [kMeansClustering_eq_of_nonempty _ _ _ _ _ _ hne hdim.ne'] at hrun
  rcases hinit : initLoop r embs p [] [] (min k embs.length) fuel with _ | ⟨cents, used, q⟩
  · rw [hinit] at hrun; cases hrun
  · rw [hinit] at hrun
    have hclen : cents.length = min k embs.length := by
      have := initLoop_some_length r embs (min k embs.length) fuel p [] []
        (cents, used, q) hinit
      simpa using this
    have hinv := kmeansLoop_inv embs (embs.headD []).length (min k embs.length) hm
      maxIter cents (List.replicate embs.length 0) hclen (by simp)
      (by intro c hc; rw [List.eq_of_mem_replicate hc]; exact hm)
    rw [Option.some_inj] at hrun
    have hcl : cl = (kmeansLoop embs (embs.headD []).length cents
        (List.replicate embs.length 0) maxIter).1 := by rw [hrun]
    refine ⟨?_, ?_, ?_⟩
    · rw [hcl]; exact hinv.1
    · intro c hc
      rw [hcl] at hc
      have := hinv.2.1 c hc
      omega
    · intro dim iters cents1 clusters1 hfix
      rw [kmeansLoop, if_pos hfix, hfix]

/-- Witness for C3: a full run on `[[1]]` with `k = 1`, the all-zero random
stream and one unit of sampling fuel returns assignment `[0]` of length 1 with
its value below `k = 1`. -/
theorem kMeans_convergence_witness :
    [(0 : ℕ)].length = [[(1 : ℝ)]].length ∧ (∀ c ∈ [(0 : ℕ)], c < 1) := by
  have hmain := kMeans_convergence (fun _ => 0) 0 [[(1 : ℝ)]] 1 100 1 [0] [[(1 : ℝ)]]
    (by simp) (by simp) le_rfl
    (by rw [List.dedup_cons_of_not_mem (List.not_mem_nil _), List.dedup_nil]; simp)
    kMeans_concrete_run
  exact ⟨hmain.1, hmain.2.1⟩

lemma pickIdx_some_spec (r : ℕ → ℝ) (n : ℕ) (used : List ℕ) :
    ∀ (fuel p idx p' : ℕ),
      pickIdx r n used p fuel = some (idx, p') →
      idx ∉ used ∧ ((∀ i, 0 ≤ r i ∧ r i < 1) → 0 < n → idx < n) := by
  intro fuel
  induction fuel with
  | zero => intro p idx p' h; rw [pickIdx] at h; cases h
  | succ f ih =>
    intro p idx p' h
    rw [pickIdx] at h
    by_cases hmem : (⌊r p * (n : ℝ)⌋).toNat ∈ used
    · rw [if_pos hmem] at h
      exact ih (p + 1) idx p' h
    · rw [if_neg hmem] at h
      rw [Option.some_inj] at h
      have hidx : idx = (⌊r p * (n : ℝ)⌋).toNat := (Prod.mk.injEq _ _ _ _ ▸ h).1.symm
      subst hidx
      refine ⟨hmem, ?_⟩
      intro hr hn
      have h0 : (0 : ℝ) ≤ r p := (hr p).1
      have h1 : r p < 1 := (hr p).2
      have hlt : r p * (n : ℝ) < (n : ℝ) := by
        have : (0 : ℝ) < (n : ℝ) := by exact_mod_cast hn
        nlinarith
      have hfl : ⌊r p * (n : ℝ)⌋ < (n : ℤ) := Int.floor_lt.mpr (by exact_mod_cast hlt)
      omega

lemma initLoop_some_spec (r : ℕ → ℝ) (embs : List (List ℝ)) :
    ∀ (count fuel p : ℕ) (used : List ℕ) (cents0 : List (List ℝ))
      (res : List (List ℝ) × List ℕ × ℕ),
      initLoop r embs p used cents0 count fuel = some res →
      ∃ fresh : List ℕ,
        res.2.1 = fresh ++ used ∧
        fresh.length = count ∧
        (∀ i ∈ fresh, i ∉ used) ∧
        fresh.Nodup ∧
        ((∀ i, 0 ≤ r i ∧ r i < 1) → 0 < embs.length → ∀ i ∈ fresh, i < embs.length) ∧
        res.1 = cents0 ++ fresh.reverse.map (fun i => embs.getD i []) := by
  intro count
  induction count with
  | zero =>
    intro fuel p used cents0 res h
    rw [initLoop] at h
    cases h
    exact ⟨[], by simp, rfl, by simp, List.nodup_nil, by simp, by simp⟩
  | succ c ih =>
    intro fuel p used cents0 res h
    rw [initLoop] at h
    rcases hp : pickIdx r embs.length used p fuel with _ | ⟨idx, p'⟩
    · rw [hp] at h; cases h
    · rw [hp] at h
      have hpick := pickIdx_some_spec r embs.length used fuel p idx p' hp
      rcases ih fuel p' (idx :: used) (cents0 ++ [embs.getD idx []]) res h with
        ⟨fresh, hused, hlen, hnotin, hnd, hbound, hcents⟩
      refine ⟨fresh ++ [idx], ?_, ?_, ?_, ?_, ?_, ?_⟩
      · rw [hused]
        simp
      · simp [hlen]
      · intro i hi
        rcases List.mem_append.mp hi with hif | hii
        · have := hnotin i hif
          intro hcon
          exact this (List.mem_cons_of_mem idx hcon)
        · rw [List.mem_singleton.mp hii]
          exact hpick.1
      · rw [List.nodup_append]
        refine ⟨hnd, List.nodup_singleton idx, ?_⟩
        intro i hif hii
        rw [List.mem_singleton.mp hii] at hif
        exact (hnotin idx hif) (List.mem_cons_self idx used)
      · intro hr hn i hi
        rcases List.mem_append.mp hi with hif | hii
        · exact hbound hr hn i hif
        · rw [List.mem_singleton.mp hii]
          exact hpick.2 hr hn
      · rw [hcents]
        simp

lemma kmeansLoop_cents_length (embs : List (List ℝ)) (dim : ℕ) :
    ∀ (iters : ℕ) (cents : List (List ℝ)) (clusters : List ℕ),
      (kmeansLoop embs dim cents clusters iters).2.length = cents.length := by
  intro iters
  induction iters with
  | zero => intro cents clusters; rw [kmeansLoop_zero]
  | succ it ih =>
    intro cents clusters
    rw [kmeansLoop_succ]
    by_cases heq : assignAll embs cents = clusters
    · rw [if_pos heq]
    · rw [if_neg heq, ih, updateCentroids_length]

/-- C5: in any completed run on a non-empty, positive-dimension input with a
random stream drawing from `[0, 1)`, the initialization samples
`min k n` distinct indices into the input (distinctness via the seen-set),
clamping to the input size `n` when `k > n`; the initial centroids are exactly
the copies of the selected input vectors, and the returned centroid list keeps
that count, indexing the final centroids `0 .. min k n - 1` (which is
`0 .. k-1` whenever `k ≤ n`). -/
theorem kMeans_init_distinct_sampling (r : ℕ → ℝ) (p : ℕ) (embs : List (List ℝ))
    (k maxIter fuel : ℕ) (cl : List ℕ) (cs : List (List ℝ))
    (hr : ∀ i, 0 ≤ r i ∧ r i < 1)
    (hne : embs ≠ [])
    (hdim : 0 < (embs.headD []).length)
    (hrun : kMeansClustering r p embs k maxIter fuel = some (cl, cs)) :
    ∃ (cents0 : List (List ℝ)) (idxs : List ℕ) (q : ℕ),
      initLoop r embs p [] [] (min k embs.length) fuel = some (cents0, idxs, q) ∧
      idxs.Nodup ∧
      idxs.length = min k embs.length ∧
      (∀ i ∈ idxs, i < embs.length) ∧
      cents0 = idxs.reverse.map (fun i => embs.getD i []) ∧
      cs.length = min k embs.length := by
  have hnlen : 0 < embs.length := List.length_pos.mpr hne
  rw [kMeansClustering_eq_of_nonempty _ _ _ _ _ _ hne hdim.ne'] at hrun
  rcases hinit : initLoop r embs p [] [] (min k embs.length) fuel with _ | ⟨cents, used, q⟩
  · rw [hinit] at hrun; cases hrun
  · rw [hinit] at hrun
    rw [Option.some_inj] at hrun
    rcases initLoop_some_spec r embs (min k embs.length) fuel p [] []
      (cents, used, q) hinit with ⟨fresh, hused, hlen, -, hnd, hbound, hcents⟩
    simp only [List.append_nil, List.nil_append] at hused hcents
    refine ⟨cents, used, q, rfl, ?_, ?_, ?_, ?_, ?_⟩
    · rw [hused]; exact hnd
    · rw [hused]; exact hlen
    · rw [hused]; exact hbound hr hnlen
    · rw [hcents, hused]
    · have hcs : cs = (kmeansLoop embs (embs.headD []).length cents
          (List.replicate embs.length 0) maxIter).2 := by rw [hrun]
      rw [hcs, kmeansLoop_cents_length, hcents]
      simp [hlen]

/-- Witness for C5: on the concrete run over `[[1]]` with `k = 1` and the
all-zero stream, initialization picks the single distinct index `0`, the
initial centroid is the copy of the input vector, and one centroid is
returned. -/
theorem kMeans_init_distinct_sampling_witness :
    ∃ (cents0 : List (List ℝ)) (idxs : List ℕ) (q : ℕ),
      initLoop (fun _ => 0) [[(1 : ℝ)]] 0 [] [] (min 1 [[(1 : ℝ)]].length) 1 =
        some (cents0, idxs, q) ∧
      idxs.Nodup ∧
      idxs.length = min 1 [[(1 : ℝ)]].length ∧
      (∀ i ∈ idxs, i < [[(1 : ℝ)]].length) ∧
      cents0 = idxs.reverse.map (fun i => [[(1 : ℝ)]].getD i []) ∧
      [[(1 : ℝ)]].length = min 1 [[(1 : ℝ)]].length :=
  kMeans_init_distinct_sampling (fun _ => 0) 0 [[(1 : ℝ)]] 1 100 1 [0] [[(1 : ℝ)]]
    (fun _ => by norm_num) (by simp) (by simp) kMeans_concrete_run

lemma addInto_length : ∀ (acc pt : List ℝ), pt.length ≤ acc.length →
    (addInto acc pt).length = acc.length := by
  intro acc
  induction acc with
  | nil =>
    intro pt hpt
    cases pt with
    | nil => rfl
    | cons v vs => simp at hpt
  | cons a as ih =>
    intro pt hpt
    cases pt with
    | nil => rfl
    | cons v vs =>
      simp only [List.length_cons] at hpt
      show ((a + v) :: addInto as vs).length = (a :: as).length
      simp only [List.length_cons]
      rw [ih vs (by omega)]

lemma foldl_addInto_length (dim : ℕ) :
    ∀ (pts : List (List ℝ)) (acc : List ℝ), acc.length = dim →
      (∀ pt ∈ pts, pt.length ≤ dim) →
      (pts.foldl (fun acc pt => addInto acc pt) acc).length = dim := by
  intro pts
  induction pts with
  | nil => intro acc hacc _; exact hacc
  | cons pt rest ih =>
    intro acc hacc hall
    rw [List.foldl_cons]
    exact ih (addInto acc pt)
      (by rw [addInto_length acc pt (by rw [hacc]; exact hall pt (by simp))]; exact hacc)
      (fun q hq => hall q (List.mem_cons_of_mem pt hq))

lemma updateCentroids_dim (embs : List (List ℝ)) (clusters : List ℕ)
    (cents : List (List ℝ)) (dim : ℕ)
    (hembs : ∀ e ∈ embs, e.length = dim)
    (hc : ∀ c ∈ cents, c.length = dim) :
    ∀ c ∈ updateCentroids embs clusters cents dim, c.length = dim := by
  intro c hcmem
  unfold updateCentroids at hcmem
  rcases List.mem_map.mp hcmem with ⟨ci, hci, hfc⟩
  have hcilt : ci < cents.length := List.mem_range.mp hci
  by_cases hempty :
      ((embs.zip clusters).filter (fun pc => pc.2 = ci)).map Prod.fst = []
  · rw [if_pos hempty] at hfc
    rw [← hfc]
    exact hc _ (by
      rw [List.getD_eq_getElem cents [] hcilt]
      exact List.getElem_mem hcilt)
  · rw [if_neg hempty] at hfc
    rw [← hfc, List.length_map]
    refine foldl_addInto_length dim _ _ (by simp) ?_
    intro pt hpt
    rcases List.mem_map.mp hpt with ⟨pr, hpr, hpr1⟩
    have hzip := List.of_mem_filter hpr
    have hprz : pr ∈ embs.zip clusters := List.mem_of_mem_filter hpr
    have hmem : pr.1 ∈ embs := by
      rcases pr with ⟨e, cc⟩
      exact (List.of_mem_zip hprz).1
    rw [← hpr1, hembs _ hmem]

lemma kmeansLoop_dim_inv (embs : List (List ℝ)) (dim : ℕ)
    (hembs : ∀ e ∈ embs, e.length = dim) :
    ∀ (iters : ℕ) (cents : List (List ℝ)) (clusters : List ℕ),
      (∀ c ∈ cents, c.length = dim) →
      ∀ c ∈ (kmeansLoop embs dim cents clusters iters).2, c.length = dim := by
  intro iters
  induction iters with
  | zero => intro cents clusters hc; rw [kmeansLoop_zero]; exact hc
  | succ it ih =>
    intro cents clusters hc
    rw [kmeansLoop_succ]
    by_cases heq : assignAll embs cents = clusters
    · rw [if_pos heq]; exact hc
    · rw [if_neg heq]
      exact ih _ _ (updateCentroids_dim embs (assignAll embs cents) cents dim hembs hc)

/-- C4: in every centroid-update pass a centroid with zero assigned vectors
keeps its previous value (the `clusterPoints.length === 0` guard at line 148),
and consequently in any completed run over uniform-dimension vectors every
returned centroid still has the input dimension — no centroid ever degenerates
to an empty vector, and the mean `val / clusterPoints.length` is only ever
taken over a non-empty assigned set, so no NaN components can arise from
averaging an empty set. -/
theorem kMeans_centroid_never_degenerates :
    (∀ (embs : List (List ℝ)) (clusters : List ℕ) (cents : List (List ℝ))
      (dim ci : ℕ), ci < cents.length →
      (∀ pr ∈ embs.zip clusters, pr.2 ≠ ci) →
      (updateCentroids embs clusters cents dim).getD ci [] = cents.getD ci []) ∧
    (∀ (r : ℕ → ℝ) (p : ℕ) (embs : List (List ℝ)) (k maxIter fuel : ℕ)
      (cl : List ℕ) (cs : List (List ℝ)),
      (∀ i, 0 ≤ r i ∧ r i < 1) →
      (∀ e ∈ embs, e.length = (embs.headD []).length) →
      kMeansClustering r p embs k maxIter fuel = some (cl, cs) →
      ∀ c ∈ cs, c.length = (embs.headD []).length) := by
  constructor
  · intro embs clusters cents dim ci hci hempty
    unfold updateCentroids
    rw [List.getD_eq_getElem _ [] (by simpa using hci)]
    simp only [List.getElem_map, List.getElem_range]
    have hfil : (embs.zip clusters).filter (fun pc => pc.2 = ci) = [] := by
      rw [List.filter_eq_nil_iff]
      intro pr hpr
      simpa using hempty pr hpr
    simp [hfil]
  · intro r p embs k maxIter fuel cl cs hr hembs hrun
    by_cases hne : embs = []
    · subst hne
      have hev : kMeansClustering r p [] k maxIter fuel = some ([], []) := by
        simp [kMeansClustering]
      rw [hev, Option.some_inj] at hrun
      simp only [Prod.mk.injEq] at hrun
      rw [← hrun.2]
      intro c hc
      simp at hc
    · by_cases hdim : (embs.headD []).length = 0
      · have hev : kMeansClustering r p embs k maxIter fuel = some ([], []) := by
          unfold kMeansClustering
          rw [if_pos (Or.inr hdim)]
        rw [hev, Option.some_inj] at hrun
        simp only [Prod.mk.injEq] at hrun
        rw [← hrun.2]
        intro c hc
        simp at hc
      · have hnlen : 0 < embs.length := List.length_pos.mpr hne
        rw [kMeansClustering_eq_of_nonempty _ _ _ _ _ _ hne hdim] at hrun
        rcases hinit : initLoop r embs p [] [] (min k embs.length) fuel with
          _ | ⟨cents, used, q⟩
        · rw [hinit] at hrun; cases hrun
        · rw [hinit, Option.some_inj] at hrun
          rcases initLoop_some_spec r embs (min k embs.length) fuel p [] []
            (cents, used, q) hinit with ⟨fresh, -, -, -, -, hbound, hcents⟩
          simp only [List.nil_append] at hcents
          have hcdim : ∀ c ∈ cents, c.length = (embs.headD []).length := by
            rw [hcents]
            intro c hc
            rcases List.mem_map.mp hc with ⟨i, hi, rfl⟩
            have hifr : i ∈ fresh := List.mem_reverse.mp hi
            have hilt : i < embs.length := hbound hr hnlen i hifr
            exact hembs _ (by
              rw [List.getD_eq_getElem embs [] hilt]
              exact List.getElem_mem hilt)
          have hcs : cs = (kmeansLoop embs (embs.headD []).length cents
              (List.replicate embs.length 0) maxIter).2 := by rw [hrun]
          rw [hcs]
          exact kmeansLoop_dim_inv embs (embs.headD []).length hembs maxIter cents
            (List.replicate embs.length 0) hcdim

/-- Witness for C4: a concrete update pass in which centroid 1 has no assigned
vectors and keeps its previous value `[7]`, and the concrete completed run on
`[[1]]` whose returned centroid `[1]` has the input dimension 1. -/
theorem kMeans_centroid_never_degenerates_witness :
    (updateCentroids [[(1 : ℝ)]] [0] [[(5 : ℝ)], [(7 : ℝ)]] 1).getD 1 [] =
      [(7 : ℝ)] ∧
    ∀ c ∈ [[(1 : ℝ)]], c.length = 1 := by
  constructor
  · have h := kMeans_centroid_never_degenerates.1 [[(1 : ℝ)]] [0]
      [[(5 : ℝ)], [(7 : ℝ)]] 1 1 (by simp)
      (by intro pr hpr; simp at hpr; rw [hpr]; simp)
    rw [h]
    rfl
  · have h := kMeans_centroid_never_degenerates.2 (fun _ => 0) 0 [[(1 : ℝ)]]
      1 100 1 [0] [[(1 : ℝ)]] (fun _ => by norm_num) (by simp) kMeans_concrete_run
    exact h

/-- `h1` extends `h0`: the heap only ever grows by allocation at the end, so a
later heap is the earlier heap plus a suffix of newly allocated cells. -/
def heapLe (h0 h1 : Heap) : Prop := ∃ t, h1 = h0 ++ t

lemma heapLe_refl (h : Heap) : heapLe h h := ⟨[], by simp⟩

lemma heapLe_trans {h0 h1 h2 : Heap} (g1 : heapLe h0 h1) (g2 : heapLe h1 h2) :
    heapLe h0 h2 := by
  rcases g1 with ⟨t1, rfl⟩
  rcases g2 with ⟨t2, rfl⟩
  exact ⟨t1 ++ t2, by simp⟩

lemma heapLe_length {h0 h1 : Heap} (g : heapLe h0 h1) : h0.length ≤ h1.length := by
  rcases g with ⟨t, rfl⟩
  simp

lemma heapLe_halloc (h : Heap) (v : List ℝ) : heapLe h (halloc h v).1 := ⟨[v], rfl⟩

lemma heapLe_hread {h0 h1 : Heap} (g : heapLe h0 h1) (ref : ℕ)
    (href : ref < h0.length) : hread h1 ref = hread h0 ref := by
  rcases g with ⟨t, rfl⟩
  unfold hread
  rw [List.getD_append _ _ _ _ href]

lemma hwrite_length (h : Heap) (ref i : ℕ) (x : ℝ) :
    (hwrite h ref i x).length = h.length := by
  simp [hwrite]

lemma heapLe_hwrite {h0 h1 : Heap} (g : heapLe h0 h1) (ref i : ℕ) (x : ℝ)
    (href : h0.length ≤ ref) : heapLe h0 (hwrite h1 ref i x) := by
  rcases g with ⟨t, rfl⟩
  unfold hwrite
  rw [List.set_append_right _ _ href]
  exact ⟨_, rfl⟩

lemma heapLe_addIntoRef {h0 h1 : Heap} (g : heapLe h0 h1) (nc : ℕ)
    (hnc : h0.length ≤ nc) (pt : List ℝ) : heapLe h0 (addIntoRef h1 nc pt) := by
  unfold addIntoRef
  generalize pt.enum = l
  induction l generalizing h1 with
  | nil => exact g
  | cons iv ivs ih =>
    rw [List.foldl_cons]
    exact ih (heapLe_hwrite g nc iv.1 _ hnc)

lemma heapLe_addIntoRef_fold {h0 : Heap} (nc : ℕ) (hnc : h0.length ≤ nc) :
    ∀ (pts : List ℕ) (h1 : Heap), heapLe h0 h1 →
      heapLe h0 (pts.foldl (fun hh pr => addIntoRef hh nc (hread hh pr)) h1) := by
  intro pts
  induction pts with
  | nil => intro h1 g; exact g
  | cons q qs ih =>
    intro h1 g
    rw [List.foldl_cons]
    exact ih _ (heapLe_addIntoRef g nc hnc _)

lemma heapLe_updateCentroidsRef (embRefs clusters : List ℕ) (dim : ℕ)
    {h0 h1 : Heap} (g : heapLe h0 h1) (centRefs : List ℕ) :
    heapLe h0 (updateCentroidsRef embRefs clusters dim h1 centRefs).1 := by
  unfold updateCentroidsRef
  generalize centRefs.enum = l
  suffices hgen : ∀ (st : Heap × List ℕ), heapLe h0 st.1 →
      heapLe h0 (l.foldl (fun st cicr =>
        let pts := ((embRefs.zip clusters).filter (fun pc => pc.2 = cicr.1)).map Prod.fst
        if pts = [] then (st.1, st.2 ++ [cicr.2])
        else
          let alloc0 := halloc st.1 (List.replicate dim 0)
          let h2 := pts.foldl (fun hh pr => addIntoRef hh alloc0.2 (hread hh pr)) alloc0.1
          let allocm := halloc h2 ((hread h2 alloc0.2).map (fun v => v / (pts.length : ℝ)))
          (allocm.1, st.2 ++ [allocm.2])) st).1 by
    exact hgen (h1, []) g
  induction l with
  | nil => intro st hst; exact hst
  | cons cicr rest ih =>
    intro st hst
    rw [List.foldl_cons]
    apply ih
    by_cases hempty :
        ((embRefs.zip clusters).filter (fun pc => pc.2 = cicr.1)).map Prod.fst = []
    · simp only [hempty, if_pos rfl]
      exact hst
    · simp only [if_neg hempty]
      have g1 : heapLe h0 (halloc st.1 (List.replicate dim 0)).1 :=
        heapLe_trans hst (heapLe_halloc _ _)
      have hnc : h0.length ≤ st.1.length := heapLe_length hst
      have g2 : heapLe h0
          (((embRefs.zip clusters).filter (fun pc => pc.2 = cicr.1)).map Prod.fst
            |>.foldl (fun hh pr => addIntoRef hh (halloc st.1 (List.replicate dim 0)).2
              (hread hh pr)) (halloc st.1 (List.replicate dim 0)).1) :=
        heapLe_addIntoRef_fold (halloc st.1 (List.replicate dim 0)).2 hnc _ _ g1
      exact heapLe_trans g2 (heapLe_halloc _ _)

lemma heapLe_initLoopRef (r : ℕ → ℝ) (embRefs : List ℕ) :
    ∀ (count fuel p : ℕ) (used centRefs : List ℕ) (h : Heap)
      (res : Heap × List ℕ × ℕ),
      initLoopRef r embRefs h p used centRefs count fuel = some res →
      heapLe h res.1 := by
  intro count
  induction count with
  | zero =>
    intro fuel p used centRefs h res hres
    rw [initLoopRef] at hres
    cases hres
    exact heapLe_refl h
  | succ c ih =>
    intro fuel p used centRefs h res hres
    rw [initLoopRef] at hres
    rcases hp : pickIdx r embRefs.length used p fuel with _ | ⟨idx, p'⟩
    · rw [hp] at hres; cases hres
    · rw [hp] at hres
      exact heapLe_trans (heapLe_halloc h _)
        (ih fuel p' (idx :: used) _ _ res hres)

lemma heapLe_kmeansLoopRef (embRefs : List ℕ) (dim : ℕ) :
    ∀ (iters : ℕ) (h : Heap) (centRefs clusters : List ℕ),
      heapLe h (kmeansLoopRef embRefs dim h centRefs clusters iters).1 := by
  intro iters
  induction iters with
  | zero => intro h centRefs clusters; rw [kmeansLoopRef]; exact heapLe_refl h
  | succ it ih =>
    intro h centRefs clusters
    rw [kmeansLoopRef]
    by_cases heq : embRefs.map
        (fun er => assignPoint (hread h er) (centRefs.map (hread h))) = clusters
    · rw [if_pos heq]; exact heapLe_refl h
    · rw [if_neg heq]
      exact heapLe_trans
        (heapLe_updateCentroidsRef embRefs _ dim (heapLe_refl h) centRefs)
        (ih _ _ _)

lemma kMeansClusteringRef_eq (r : ℕ → ℝ) (p : ℕ) (h : Heap) (r0 : ℕ)
    (rest : List ℕ) (k maxIter fuel : ℕ) (hd : (hread h r0).length ≠ 0) :
    kMeansClusteringRef r p h (r0 :: rest) k maxIter fuel =
      match initLoopRef r (r0 :: rest) h p [] [] (min k (r0 :: rest).length) fuel with
      | none => none
      | some (h2, centRefs, _) =>
        some (kmeansLoopRef (r0 :: rest) (hread h r0).length h2 centRefs
          (List.replicate (r0 :: rest).length 0) maxIter) := by
  unfold kMeansClusteringRef
  rw [if_neg]
  push_neg
  exact ⟨by simp, hd⟩

/-- C9: `kMeansClustering` never mutates its input arrays: in the heap model —
where the initial centroids are the freshly allocated copies
`[...embeddings[idx]]` and every element write of the update pass targets a
freshly allocated `new Array(dim).fill(0)` — any completed run only extends
the heap, so every pre-existing cell, in particular every input embedding, is
unchanged afterwards. -/
theorem kMeansRef_no_mutation (r : ℕ → ℝ) (p : ℕ) (h : Heap) (embRefs : List ℕ)
    (k maxIter fuel : ℕ) (h1 : Heap) (cl cr : List ℕ)
    (hrun : kMeansClusteringRef r p h embRefs k maxIter fuel = some (h1, cl, cr)) :
    heapLe h h1 ∧ ∀ ref, ref < h.length → hread h1 ref = hread h ref := by
  have hle : heapLe h h1 := by
    rcases embRefs with _ | ⟨r0, rest⟩
    · have hev : kMeansClusteringRef r p h [] k maxIter fuel = some (h, [], []) := by
        simp [kMeansClusteringRef]
      rw [hev, Option.some_inj] at hrun
      rw [← (show h = h1 from congrArg Prod.fst hrun)]
      exact heapLe_refl h
    · by_cases hd : (hread h r0).length = 0
      · have hev : kMeansClusteringRef r p h (r0 :: rest) k maxIter fuel =
            some (h, [], []) := by
          unfold kMeansClusteringRef
          rw [if_pos (Or.inr hd)]
        rw [hev, Option.some_inj] at hrun
        rw [← (show h = h1 from congrArg Prod.fst hrun)]
        exact heapLe_refl h
      · rw [kMeansClusteringRef_eq r p h r0 rest k maxIter fuel hd] at hrun
        rcases hinit : initLoopRef r (r0 :: rest) h p [] []
            (min k (r0 :: rest).length) fuel with _ | ⟨h2, centRefs, q⟩
        · rw [hinit] at hrun; cases hrun
        · rw [hinit, Option.some_inj] at hrun
          have g1 : heapLe h h2 :=
            heapLe_initLoopRef r (r0 :: rest) (min k (r0 :: rest).length) fuel p
              [] [] h (h2, centRefs, q) hinit
          have g2 : heapLe h2 (kmeansLoopRef (r0 :: rest) (hread h r0).length h2
              centRefs (List.replicate (r0 :: rest).length 0) maxIter).1 :=
            heapLe_kmeansLoopRef (r0 :: rest) (hread h r0).length maxIter h2
              centRefs (List.replicate (r0 :: rest).length 0)
          have hh1 : h1 = (kmeansLoopRef (r0 :: rest) (hread h r0).length h2
              centRefs (List.replicate (r0 :: rest).length 0) maxIter).1 :=
            (congrArg Prod.fst hrun).symm
          rw [hh1]
          exact heapLe_trans g1 g2
  exact ⟨hle, fun ref href => heapLe_hread hle ref href⟩

/-- Witness for C9: the concrete heap run over input cell `[[1]]` allocates a
centroid copy (final heap `[[1], [1]]`) and leaves the input cell unchanged. -/
theorem kMeansRef_no_mutation_witness :
    heapLe [[(1 : ℝ)]] [[(1 : ℝ)], [(1 : ℝ)]] ∧
    ∀ ref, ref < [[(1 : ℝ)]].length →
      hread [[(1 : ℝ)], [(1 : ℝ)]] ref = hread [[(1 : ℝ)]] ref := by
  have hrun : kMeansClusteringRef (fun _ => 0) 0 [[(1 : ℝ)]] [0] 1 100 1 =
      some ([[(1 : ℝ)], [(1 : ℝ)]], [0], [1]) := by
    rw [kMeansClusteringRef_eq (fun _ => 0) 0 [[(1 : ℝ)]] 0 [] 1 100 1
      (by norm_num [hread])]
    have hpick : pickIdx (fun _ => (0 : ℝ)) 1 [] 0 1 = some (0, 1) := by
      norm_num [pickIdx]
    have hinit : initLoopRef (fun _ => (0 : ℝ)) [0] [[(1 : ℝ)]] 0 [] [] (0 + 1) 1 =
        some ([[(1 : ℝ)], [(1 : ℝ)]], [1], 1) := by
      rw [initLoopRef.eq_def]
      simp only [List.length_cons, List.length_nil, Nat.zero_add]
      rw [hpick]
      simp only [initLoopRef]
      rfl
    have hmin : min 1 [(0 : ℕ)].length = 0 + 1 := by simp
    rw [hmin, hinit]
    have hnc : [(0 : ℕ)].map (fun er => assignPoint (hread [[(1 : ℝ)], [(1 : ℝ)]] er)
        ([1].map (hread [[(1 : ℝ)], [(1 : ℝ)]]))) = List.replicate [(0 : ℕ)].length 0 := by
      simp only [List.map_cons, List.map_nil]
      rw [show hread [[(1 : ℝ)], [(1 : ℝ)]] 0 = [(1 : ℝ)] from rfl,
        show hread [[(1 : ℝ)], [(1 : ℝ)]] 1 = [(1 : ℝ)] from rfl,
        assignPoint_one_eval]
      rfl
    have hloop : kmeansLoopRef [0] (hread [[(1 : ℝ)]] 0).length
        [[(1 : ℝ)], [(1 : ℝ)]] [1] (List.replicate [(0 : ℕ)].length 0) 100 =
        ([[(1 : ℝ)], [(1 : ℝ)]], [0], [1]) := by
      rw [show (100 : ℕ) = 99 + 1 from rfl, kmeansLoopRef]
      rw [if_pos hnc, hnc]
      rfl
    show some (kmeansLoopRef [0] (hread [[(1 : ℝ)]] 0).length
      [[(1 : ℝ)], [(1 : ℝ)]] [1] (List.replicate [(0 : ℕ)].length 0) 100) =
      some ([[(1 : ℝ)], [(1 : ℝ)]], [0], [1])
    rw [hloop]
  exact kMeansRef_no_mutation (fun _ => 0) 0 [[(1 : ℝ)]] [0] 1 100 1
    [[(1 : ℝ)], [(1 : ℝ)]] [0] [1] hrun
